import Mathlib

/-!
Verification of the MCTS inventory optimizer of
`app/agents/mcts_optimizer.py` (class `MCTSOptimizerAgent`).

Python floats are modelled as rationals (ℚ), Python ints as ℤ or ℕ.
All monetary and stock quantities in the source are ordinary Python
floats combined with `+`, `*`, `min`, `max`, so ℚ is an exact model of
the combinatorial structure of the computation.
-/

namespace AuraChain

/-- Inventory state at a point in time, from the dataclass
`InventoryState` (fields `current_stock`, `day`, `total_cost`). -/
structure InventoryState where
  current_stock : ℚ
  day : ℤ
  total_cost : ℚ
  deriving DecidableEq

/-- `InventoryState.is_terminal`: `self.day >= horizon`. -/
def InventoryState.is_terminal (s : InventoryState) (horizon : ℤ) : Prop :=
  horizon ≤ s.day

instance (s : InventoryState) (horizon : ℤ) : Decidable (s.is_terminal horizon) :=
  inferInstanceAs (Decidable (horizon ≤ s.day))

/-- `InventoryState.transition`: one simulated day.  Receives the order
instantly (`new_stock = current_stock + order_qty`), computes
`stockout = max(0, demand - new_stock)`, `ending_stock = max(0, new_stock - demand)`,
and accumulates `holding_cost * ending_stock + stockout_cost * stockout`. -/
def InventoryState.transition (s : InventoryState)
    (order_qty demand holding_cost stockout_cost : ℚ) : InventoryState :=
  let new_stock := s.current_stock + order_qty
  let stockout := max 0 (demand - new_stock)
  let ending_stock := max 0 (new_stock - demand)
  { current_stock := ending_stock
    day := s.day + 1
    total_cost := s.total_cost + holding_cost * ending_stock + stockout_cost * stockout }

/-- C1: for nonnegative order quantity, demand and cost rates, `transition`
returns the state with `current_stock = max 0 (current_stock + order_qty - demand)`,
`day = day + 1`, cumulative cost increased by exactly
`holding_cost * ending_stock + stockout_cost * max 0 (demand - current_stock - order_qty)`,
and the ending stock and the stockout quantity are never both strictly positive. -/
theorem transition_correct (s : InventoryState) (q d h c : ℚ)
    (hq : 0 ≤ q) (hd : 0 ≤ d) (hh : 0 ≤ h) (hc : 0 ≤ c) :
    (s.transition q d h c).current_stock = max 0 (s.current_stock + q - d) ∧
    (s.transition q d h c).day = s.day + 1 ∧
    (s.transition q d h c).total_cost = s.total_cost
      + h * max 0 (s.current_stock + q - d)
      + c * max 0 (d - s.current_stock - q) ∧
    ¬ (0 < max 0 (s.current_stock + q - d) ∧ 0 < max 0 (d - s.current_stock - q)) := by
  refine ⟨rfl, rfl, ?_, ?_⟩
  · simp only [InventoryState.transition]
    ring_nf
  · rintro ⟨h1, h2⟩
    rcases le_total (s.current_stock + q - d) 0 with hle | hle
    · simp [max_eq_left hle] at h1
    · have : d - s.current_stock - q ≤ 0 := by linarith
      simp [max_eq_left this] at h2

/-- Witness for C1 at the concrete transition of stock 10, order 2,
demand 5, holding cost 1, stockout cost 10. -/
theorem transition_correct_witness :
    ((0:ℚ) ≤ 2 ∧ (0:ℚ) ≤ 5 ∧ (0:ℚ) ≤ 1 ∧ (0:ℚ) ≤ 10) ∧
    ((InventoryState.mk 10 0 0).transition 2 5 1 10).current_stock = max 0 (10 + 2 - 5) ∧
    ((InventoryState.mk 10 0 0).transition 2 5 1 10).day = 0 + 1 ∧
    ((InventoryState.mk 10 0 0).transition 2 5 1 10).total_cost = 0
      + 1 * max 0 (10 + 2 - 5) + 10 * max 0 (5 - 10 - 2) ∧
    ¬ (0 < max 0 ((10:ℚ) + 2 - 5) ∧ 0 < max 0 ((5:ℚ) - 10 - 2)) := by
  refine ⟨by norm_num, ?_⟩
  have h := transition_correct (InventoryState.mk 10 0 0) 2 5 1 10
    (by norm_num) (by norm_num) (by norm_num) (by norm_num)
  exact h

/-- Mean of a list of rationals, modelling `np.mean(demand_history)` on the
extracted demand series. -/
def listMean (l : List ℚ) : ℚ := l.sum / l.length

/-- The normalization bound of `_run_mcts`:
`max_penalty = stockout_cost * (mean_demand * 2) * horizon`, replaced by `1.0`
when it equals zero (`if max_penalty == 0: max_penalty = 1.0`). -/
def maxPenalty (stockout_cost mean_demand : ℚ) (horizon : ℤ) : ℚ :=
  if stockout_cost * (mean_demand * 2) * (horizon : ℚ) = 0 then 1
  else stockout_cost * (mean_demand * 2) * (horizon : ℚ)

/-- Backpropagated reward of `_run_mcts`:
`normalized_reward = 1.0 - (min(sim_state.total_cost, max_penalty) / max_penalty)`. -/
def normalizedReward (total_cost mp : ℚ) : ℚ :=
  1 - min total_cost mp / mp

/-- Simulation (rollout) loop of `_run_mcts`: starting from `sim_state`,
while the state is not terminal, transition with the next rollout action
(`np.random.choice(action_space)`) and the next sampled demand.  The random
draws are supplied as oracle lists `acts`, `dems`; `fuel` bounds the number
of loop turns (the Python loop runs exactly `max(0, horizon - day)` turns,
so any `fuel` at least that large reproduces it). -/
def runRollout (horizon : ℤ) (h c : ℚ) :
    ℕ → InventoryState → List ℚ → List ℚ → InventoryState
  | 0, s, _, _ => s
  | fuel + 1, s, acts, dems =>
    if s.is_terminal horizon then s
    else runRollout horizon h c fuel
      (s.transition (acts.headD 0) (dems.headD 0) h c) acts.tail dems.tail

/-- The no-reorder baseline of `_calculate_baseline_cost`: starting from
`current_stock` on day 0 with zero cost, run `horizon` transitions with
order quantity 0, one sampled demand per day (the sampled path is the list
`dems`, one entry per loop turn), and return the final `total_cost`. -/
def baselineCost (current_stock : ℚ) (dems : List ℚ) (h c : ℚ) : ℚ :=
  (dems.foldl (fun s d => s.transition 0 d h c) (InventoryState.mk current_stock 0 0)).total_cost

theorem transition_cost_mono (s : InventoryState) (q d h c : ℚ)
    (hh : 0 ≤ h) (hc : 0 ≤ c) :
    s.total_cost ≤ (s.transition q d h c).total_cost := by
  have h1 : 0 ≤ h * max 0 (s.current_stock + q - d) :=
    mul_nonneg hh (le_max_left 0 _)
  have h2 : 0 ≤ c * max 0 (d - (s.current_stock + q)) :=
    mul_nonneg hc (le_max_left 0 _)
  simp only [InventoryState.transition]
  linarith

theorem runRollout_cost_nonneg (horizon : ℤ) (h c : ℚ) (hh : 0 ≤ h) (hc : 0 ≤ c)
    (fuel : ℕ) (s : InventoryState) (acts dems : List ℚ)
    (hs : 0 ≤ s.total_cost) :
    0 ≤ (runRollout horizon h c fuel s acts dems).total_cost := by
  induction fuel generalizing s acts dems with
  | zero => exact hs
  | succ n ih =>
    simp only [runRollout]
    split
    · exact hs
    · exact ih _ _ _ (le_trans hs (transition_cost_mono s _ _ h c hh hc))

theorem listMean_nonneg (l : List ℚ) (hl : ∀ x ∈ l, 0 ≤ x) : 0 ≤ listMean l := by
  have hsum : 0 ≤ l.sum := List.sum_nonneg hl
  have : (0:ℚ) ≤ (l.length : ℚ) := by positivity
  exact div_nonneg hsum this

theorem maxPenalty_pos (c m : ℚ) (horizon : ℤ)
    (hc : 0 ≤ c) (hm : 0 ≤ m) (hhor : 0 ≤ horizon) :
    0 < maxPenalty c m horizon := by
  unfold maxPenalty
  split
  · norm_num
  · rename_i hne
    have hnn : 0 ≤ c * (m * 2) * (horizon : ℚ) := by
      have : (0:ℚ) ≤ (horizon : ℚ) := by exact_mod_cast hhor
      positivity
    exact lt_of_le_of_ne hnn (Ne.symm hne)

/-- C2: the reward backpropagated for a rollout equals
`1 - min(total_cost, maxPenalty) / maxPenalty` with
`maxPenalty = stockout_cost * (2 * mean demand) * horizon` (replaced by 1 when
zero), and for nonnegative cost rates, demand history and horizon this reward
always lies in [0, 1] (the rollout may start from any state whose accumulated
cost is nonnegative, which covers every state reached from the day-0 root). -/
theorem rollout_reward_bounds (hist : List ℚ) (h c : ℚ) (horizon : ℤ)
    (fuel : ℕ) (s : InventoryState) (acts dems : List ℚ)
    (hh : 0 ≤ h) (hc : 0 ≤ c) (hhist : ∀ x ∈ hist, 0 ≤ x) (hhor : 0 ≤ horizon)
    (hs : 0 ≤ s.total_cost) :
    normalizedReward (runRollout horizon h c fuel s acts dems).total_cost
        (maxPenalty c (listMean hist) horizon)
      = 1 - min (runRollout horizon h c fuel s acts dems).total_cost
            (maxPenalty c (listMean hist) horizon)
          / maxPenalty c (listMean hist) horizon ∧
    0 ≤ normalizedReward (runRollout horizon h c fuel s acts dems).total_cost
          (maxPenalty c (listMean hist) horizon) ∧
    normalizedReward (runRollout horizon h c fuel s acts dems).total_cost
        (maxPenalty c (listMean hist) horizon) ≤ 1 := by
  set cost := (runRollout horizon h c fuel s acts dems).total_cost with hcost
  have hcost0 : 0 ≤ cost := runRollout_cost_nonneg horizon h c hh hc fuel s acts dems hs
  set mp := maxPenalty c (listMean hist) horizon with hmp
  have hmp0 : 0 < mp :=
    maxPenalty_pos c (listMean hist) horizon hc (listMean_nonneg hist hhist) hhor
  refine ⟨rfl, ?_, ?_⟩
  · unfold normalizedReward
    have : min cost mp ≤ mp := min_le_right _ _
    have hdiv : min cost mp / mp ≤ 1 := by
      rw [div_le_one hmp0]
      exact this
    linarith
  · unfold normalizedReward
    have h0 : 0 ≤ min cost mp := le_min hcost0 (le_of_lt hmp0)
    have hdiv : 0 ≤ min cost mp / mp := div_nonneg h0 (le_of_lt hmp0)
    linarith

/-- Witness for C2: history [10, 10], holding 1, stockout 50, horizon 2,
rollout from the empty-pocket root with concrete oracle draws. -/
theorem rollout_reward_bounds_witness :
    ((0:ℚ) ≤ 1 ∧ (0:ℚ) ≤ 50 ∧ (∀ x ∈ [(10:ℚ), 10], 0 ≤ x) ∧ (0:ℤ) ≤ 2 ∧
      (0:ℚ) ≤ (InventoryState.mk 20 0 0).total_cost) ∧
    (0 ≤ normalizedReward
        (runRollout 2 1 50 2 (InventoryState.mk 20 0 0) [0, 0] [10, 10]).total_cost
        (maxPenalty 50 (listMean [10, 10]) 2) ∧
      normalizedReward
        (runRollout 2 1 50 2 (InventoryState.mk 20 0 0) [0, 0] [10, 10]).total_cost
        (maxPenalty 50 (listMean [10, 10]) 2) ≤ 1) := by
  have h := rollout_reward_bounds [10, 10] 1 50 2 2 (InventoryState.mk 20 0 0) [0, 0] [10, 10]
    (by norm_num) (by norm_num) (by intro x hx; simp at hx; simp [hx]) (by norm_num) (by norm_num)
  exact ⟨⟨by norm_num, by norm_num, by intro x hx; simp at hx; simp [hx], by norm_num, by norm_num⟩,
    h.2.1, h.2.2⟩

theorem baseline_zero_stock_step (s : InventoryState) (d h c : ℚ) (hd : 0 ≤ d)
    (hstock : s.current_stock = 0) :
    (s.transition 0 d h c).current_stock = 0 ∧
    (s.transition 0 d h c).total_cost = s.total_cost + c * d := by
  constructor
  · simp only [InventoryState.transition, hstock]
    have : (0:ℚ) + 0 - d ≤ 0 := by linarith
    simp [max_eq_left this, hd]
  · simp only [InventoryState.transition, hstock]
    have h1 : (0:ℚ) + 0 - d ≤ 0 := by linarith
    have h2 : (0:ℚ) ≤ d - (0 + 0) := by linarith
    rw [max_eq_left h1, max_eq_right h2]
    ring

theorem baseline_zero_stock_aux (dems : List ℚ) (h c : ℚ) (hd : ∀ x ∈ dems, 0 ≤ x)
    (s : InventoryState) (hstock : s.current_stock = 0) :
    (dems.foldl (fun s d => s.transition 0 d h c) s).total_cost
      = s.total_cost + c * dems.sum := by
  induction dems generalizing s with
  | nil => simp
  | cons d rest ih =>
    have hd0 : 0 ≤ d := hd d (by simp)
    obtain ⟨hst, hco⟩ := baseline_zero_stock_step s d h c hd0 hstock
    simp only [List.foldl_cons, List.sum_cons]
    rw [ih (fun x hx => hd x (by simp [hx])) _ hst, hco]
    ring

/-- C7: under the never-reorder baseline, starting from stock 0 every
nonnegative demand path costs exactly `stockout_cost * (sum of demands)`
(no holding cost ever accrues: the result does not depend on
`holding_cost`); and for current stock 10, sampled demand path [10, 10, 10],
holding cost 1, stockout cost 10, the baseline cost is exactly 200. -/
theorem baseline_cost_correct (dems : List ℚ) (h c : ℚ) (hd : ∀ x ∈ dems, 0 ≤ x) :
    baselineCost 0 dems h c = c * dems.sum ∧
    baselineCost 10 [10, 10, 10] 1 10 = 200 := by
  constructor
  · unfold baselineCost
    rw [baseline_zero_stock_aux dems h c hd (InventoryState.mk 0 0 0) rfl]
    simp
  · unfold baselineCost
    norm_num [InventoryState.transition]

/-- Witness for C7 at the demand path [3, 0, 7] with rates 2 and 5. -/
theorem baseline_cost_correct_witness :
    (∀ x ∈ [(3:ℚ), 0, 7], 0 ≤ x) ∧
    (baselineCost 0 [3, 0, 7] 2 5 = 5 * List.sum [3, 0, 7] ∧
      baselineCost 10 [10, 10, 10] 1 10 = 200) := by
  have hd : ∀ x ∈ [(3:ℚ), 0, 7], 0 ≤ x := by intro x hx; simp at hx; rcases hx with h | h | h <;> simp [h]
  exact ⟨hd, baseline_cost_correct [3, 0, 7] 2 5 hd⟩

/-- Node of the search tree, from class `MCTSNode`.  The mutable Python
object graph (child list, parent back-pointers) is modelled as a rose
tree; the parent pointer is implicit (a node's position in the tree), and
backpropagation walks the access path instead of the parent chain. -/
inductive MCTSTree where
  | node (state : InventoryState) (action : ℚ) (visits : ℕ)
      (total_reward : ℚ) (untried_actions : List ℚ) (children : List MCTSTree)

namespace MCTSTree

def state : MCTSTree → InventoryState
  | .node s _ _ _ _ _ => s

def action : MCTSTree → ℚ
  | .node _ a _ _ _ _ => a

def visits : MCTSTree → ℕ
  | .node _ _ v _ _ _ => v

def total_reward : MCTSTree → ℚ
  | .node _ _ _ w _ _ => w

def untried : MCTSTree → List ℚ
  | .node _ _ _ _ u _ => u

def children : MCTSTree → List MCTSTree
  | .node _ _ _ _ _ ch => ch

/-- `MCTSNode.is_fully_expanded`: `len(self.untried_actions) == 0`. -/
def is_fully_expanded (t : MCTSTree) : Prop := t.untried = []

instance (t : MCTSTree) : Decidable t.is_fully_expanded :=
  inferInstanceAs (Decidable (t.untried = []))

/-- `MCTSNode.add_child`: create a child holding the given state and action
whose untried list is a fresh copy `list(action_space)` of the full action
space, remove the action from this node's untried list
(`self.untried_actions.remove(action)` removes the first occurrence), and
append the child to `self.children`. -/
def add_child (t : MCTSTree) (a : ℚ) (s : InventoryState) (action_space : List ℚ) : MCTSTree :=
  match t with
  | .node st ac v w u ch =>
    .node st ac v w (u.erase a) (ch ++ [.node s a 0 0 action_space []])

end MCTSTree

/-- Replace the element at index `i` by its image under `f` (used to model
in-place mutation of one child in a Python list). -/
def modifyAt (f : α → α) : List α → ℕ → List α
  | [], _ => []
  | x :: xs, 0 => f x :: xs
  | x :: xs, n + 1 => x :: modifyAt f xs n

namespace MCTSTree

/-- The node reached from `t` by following the given child indices. -/
def subtreeAt : MCTSTree → List ℕ → Option MCTSTree
  | t, [] => some t
  | t, i :: p =>
    match t.children.get? i with
    | some c => c.subtreeAt p
    | none => none

/-- Expansion applied at the node addressed by the path: perform
`add_child` there with the head of its untried list as action (the code
takes `action = node.untried_actions[0]`), the freshly transitioned state
`s`, and the shared action space. -/
def expandAt : MCTSTree → List ℕ → InventoryState → List ℚ → MCTSTree
  | t, [], s, action_space => t.add_child (t.untried.headD 0) s action_space
  | .node st ac v w u ch, i :: p, s, action_space =>
    .node st ac v w u (modifyAt (fun c => c.expandAt p s action_space) ch i)

/-- Backpropagation (`while node is not None: node.update(reward); node = node.parent`):
every node on the path from the root to the addressed node, both included,
gets `visits += 1` and `total_reward += reward`. -/
def backprop : MCTSTree → List ℕ → ℚ → MCTSTree
  | .node st ac v w u ch, [], r => .node st ac (v + 1) (w + r) u ch
  | .node st ac v w u ch, i :: p, r =>
    .node st ac (v + 1) (w + r) u (modifyAt (fun c => c.backprop p r) ch i)

end MCTSTree

/-- The root created by `_run_mcts`:
`MCTSNode(root_state, untried_actions=list(action_space))` with
`root_state = InventoryState(current_stock=current_stock, day=0)`. -/
def initRoot (current_stock : ℚ) (action_space : List ℚ) : MCTSTree :=
  .node (InventoryState.mk current_stock 0 0) 0 0 0 action_space []

theorem length_modifyAt (f : α → α) (l : List α) (i : ℕ) :
    (modifyAt f l i).length = l.length := by
  induction l generalizing i with
  | nil => rfl
  | cons x xs ih => cases i with
    | zero => rfl
    | succ n => simp [modifyAt, ih]

theorem get?_modifyAt (f : α → α) (l : List α) (i j : ℕ) :
    (modifyAt f l i).get? j = if i = j then (l.get? j).map f else l.get? j := by
  induction l generalizing i j with
  | nil => simp [modifyAt]
  | cons x xs ih =>
    cases i with
    | zero => cases j with
      | zero => simp [modifyAt]
      | succ m => simp [modifyAt]
    | succ n => cases j with
      | zero => simp [modifyAt]
      | succ m =>
        simp only [modifyAt, List.get?_cons_succ, ih]
        by_cases h : n = m
        · simp [h]
        · simp [h, fun hc => h (Nat.succ_injective hc)]

theorem modifyAt_append_last (f : α → α) (l : List α) (x : α) :
    modifyAt f (l ++ [x]) l.length = l ++ [f x] := by
  induction l with
  | nil => rfl
  | cons y ys ih => simp [modifyAt, ih]

theorem modifyAt_modifyAt (f g : α → α) (l : List α) (i : ℕ) :
    modifyAt f (modifyAt g l i) i = modifyAt (fun x => f (g x)) l i := by
  induction l generalizing i with
  | nil => rfl
  | cons x xs ih => cases i with
    | zero => rfl
    | succ n => simp [modifyAt, ih]

theorem mem_modifyAt (f : α → α) (l : List α) (i : ℕ) (x : α) (hx : x ∈ modifyAt f l i) :
    x ∈ l ∨ ∃ y, l.get? i = some y ∧ x = f y := by
  induction l generalizing i with
  | nil => simp [modifyAt] at hx
  | cons z zs ih =>
    cases i with
    | zero =>
      simp only [modifyAt, List.mem_cons] at hx
      rcases hx with h | h
      · exact Or.inr ⟨z, rfl, h⟩
      · exact Or.inl (by simp [h])
    | succ n =>
      simp only [modifyAt, List.mem_cons] at hx
      rcases hx with h | h
      · exact Or.inl (by simp [h])
      · rcases ih n h with h2 | ⟨y, hy, hxy⟩
        · exact Or.inl (by simp [h2])
        · exact Or.inr ⟨y, by simpa using hy, hxy⟩

namespace MCTSTree

@[simp] theorem state_node (st : InventoryState) (a : ℚ) (v : ℕ) (w : ℚ)
    (u : List ℚ) (ch : List MCTSTree) : (node st a v w u ch).state = st := rfl

@[simp] theorem action_node (st : InventoryState) (a : ℚ) (v : ℕ) (w : ℚ)
    (u : List ℚ) (ch : List MCTSTree) : (node st a v w u ch).action = a := rfl

@[simp] theorem visits_node (st : InventoryState) (a : ℚ) (v : ℕ) (w : ℚ)
    (u : List ℚ) (ch : List MCTSTree) : (node st a v w u ch).visits = v := rfl

@[simp] theorem total_reward_node (st : InventoryState) (a : ℚ) (v : ℕ) (w : ℚ)
    (u : List ℚ) (ch : List MCTSTree) : (node st a v w u ch).total_reward = w := rfl

@[simp] theorem untried_node (st : InventoryState) (a : ℚ) (v : ℕ) (w : ℚ)
    (u : List ℚ) (ch : List MCTSTree) : (node st a v w u ch).untried = u := rfl

@[simp] theorem children_node (st : InventoryState) (a : ℚ) (v : ℕ) (w : ℚ)
    (u : List ℚ) (ch : List MCTSTree) : (node st a v w u ch).children = ch := rfl

theorem backprop_visits (t : MCTSTree) (p : List ℕ) (r : ℚ) :
    (t.backprop p r).visits = t.visits + 1 := by
  cases t <;> cases p <;> rfl

theorem backprop_action (t : MCTSTree) (p : List ℕ) (r : ℚ) :
    (t.backprop p r).action = t.action := by
  cases t <;> cases p <;> rfl

theorem backprop_untried (t : MCTSTree) (p : List ℕ) (r : ℚ) :
    (t.backprop p r).untried = t.untried := by
  cases t <;> cases p <;> rfl

theorem expandAt_visits (t : MCTSTree) (p : List ℕ) (s : InventoryState) (A : List ℚ) :
    (t.expandAt p s A).visits = t.visits := by
  cases t <;> cases p <;> rfl

theorem expandAt_action (t : MCTSTree) (p : List ℕ) (s : InventoryState) (A : List ℚ) :
    (t.expandAt p s A).action = t.action := by
  cases t <;> cases p <;> rfl

end MCTSTree

/-- Every node of the tree satisfies `P` (the node itself and, recursively,
all its descendants). -/
inductive TreeAll (P : MCTSTree → Prop) : MCTSTree → Prop
  | intro (t : MCTSTree) (hp : P t) (hch : ∀ c ∈ t.children, TreeAll P c) : TreeAll P t

theorem TreeAll.self {P : MCTSTree → Prop} {t : MCTSTree} (h : TreeAll P t) : P t := by
  cases h; assumption

theorem TreeAll.child {P : MCTSTree → Prop} {t c : MCTSTree} (h : TreeAll P t)
    (hc : c ∈ t.children) : TreeAll P c := by
  cases h with
  | intro t hp hch => exact hch c hc

/-- Every node reachable by a child path satisfies `P`. -/
theorem TreeAll.subtree {P : MCTSTree → Prop} (p : List ℕ) :
    ∀ {t n : MCTSTree}, TreeAll P t → t.subtreeAt p = some n → P n := by
  induction p with
  | nil =>
    intro t n h hsub
    cases t <;> exact (Option.some.inj hsub) ▸ h.self
  | cons i p ih =>
    intro t n h hsub
    cases t with
    | node st a v w u ch =>
      simp only [MCTSTree.subtreeAt, MCTSTree.children_node] at hsub
      cases hg : ch.get? i with
      | none => rw [hg] at hsub; cases hsub
      | some c =>
        rw [hg] at hsub
        exact ih (h.child (by simpa using List.get?_mem hg)) hsub

/-- Every child anywhere in the tree has been visited at least once. -/
def childVisits (t : MCTSTree) : Prop := ∀ c ∈ t.children, 1 ≤ c.visits

theorem TreeAll_childVisits_backprop (p : List ℕ) (r : ℚ) :
    ∀ t : MCTSTree, TreeAll childVisits t → TreeAll childVisits (t.backprop p r) := by
  induction p with
  | nil =>
    intro t h
    cases t with
    | node st a v w u ch =>
      exact TreeAll.intro _ (fun c hc => h.self c hc) (fun c hc => h.child hc)
  | cons i p ih =>
    intro t h
    cases t with
    | node st a v w u ch =>
      refine TreeAll.intro _ ?_ ?_
      · intro c hc
        rcases mem_modifyAt _ _ _ _ hc with hmem | ⟨y, hy, rfl⟩
        · exact h.self c hmem
        · rw [MCTSTree.backprop_visits]; omega
      · intro c hc
        rcases mem_modifyAt _ _ _ _ hc with hmem | ⟨y, hy, rfl⟩
        · exact h.child hmem
        · exact ih y (h.child (by simpa using List.get?_mem hy))

theorem TreeAll_childVisits_expand_backprop (p : List ℕ) (s : InventoryState)
    (A : List ℚ) (r : ℚ) :
    ∀ (t n : MCTSTree), t.subtreeAt p = some n → TreeAll childVisits t →
      TreeAll childVisits ((t.expandAt p s A).backprop (p ++ [n.children.length]) r) := by
  induction p with
  | nil =>
    intro t n hsub h
    have hn : t = n := Option.some.inj hsub
    subst hn
    cases t with
    | node st a v w u ch =>
      simp only [MCTSTree.expandAt, MCTSTree.add_child, List.nil_append,
        MCTSTree.backprop, MCTSTree.children_node]
      rw [modifyAt_append_last]
      refine TreeAll.intro _ ?_ ?_
      · intro c hc
        simp only [MCTSTree.children_node] at hc
        rcases List.mem_append.mp hc with hmem | hmem
        · exact h.self c hmem
        · simp only [List.mem_singleton] at hmem
          subst hmem
          simp [MCTSTree.backprop]
      · intro c hc
        simp only [MCTSTree.children_node] at hc
        rcases List.mem_append.mp hc with hmem | hmem
        · exact h.child hmem
        · simp only [List.mem_singleton] at hmem
          subst hmem
          exact TreeAll.intro _ (fun c hc => by simp [MCTSTree.backprop] at hc)
            (fun c hc => by simp [MCTSTree.backprop] at hc)
  | cons i p ih =>
    intro t n hsub h
    cases t with
    | node st a v w u ch =>
      simp only [MCTSTree.subtreeAt, MCTSTree.children_node] at hsub
      cases hg : ch.get? i with
      | none => rw [hg] at hsub; cases hsub
      | some c =>
        rw [hg] at hsub
        simp only [MCTSTree.expandAt, List.cons_append, MCTSTree.backprop,
          MCTSTree.children_node]
        rw [modifyAt_modifyAt]
        refine TreeAll.intro _ ?_ ?_
        · intro x hx
          rcases mem_modifyAt _ _ _ _ hx with hmem | ⟨y, hy, rfl⟩
          · exact h.self x hmem
          · rw [MCTSTree.backprop_visits]; omega
        · intro x hx
          rcases mem_modifyAt _ _ _ _ hx with hmem | ⟨y, hy, rfl⟩
          · exact h.child hmem
          · have hyc : y = c := by rw [hg] at hy; exact (Option.some.inj hy).symm
            subst hyc
            exact ih y n hsub (h.child (by simpa using List.get?_mem hg))

/-- Selection loop of `_run_mcts`:
`while node.is_fully_expanded() and not state.is_terminal(horizon): if not node.children: break; node = node.best_child(); state = state.transition(node.action, demand, ...)`.
The choice of child (`node.best_child()`, UCB1) is abstracted into `pick`
(reduced modulo the number of children); the invariant theorems below hold
for every `pick`, so in particular for the UCB1 choice.  `fuel` bounds the
descent; every descent step enters a strict subtree, so `treeDepth t` fuel
never truncates the loop.  Returns the path of the selected node, the
advanced simulated state and the unconsumed demand draws. -/
def selectLoop (pick : MCTSTree → ℕ) (horizon : ℤ) (h c : ℚ) :
    ℕ → MCTSTree → InventoryState → List ℚ → List ℕ × InventoryState × List ℚ
  | 0, _, s, ds => ([], s, ds)
  | fuel + 1, t, s, ds =>
    if t.is_fully_expanded ∧ ¬ s.is_terminal horizon then
      if t.children.length = 0 then ([], s, ds)
      else
        let i := pick t % t.children.length
        let child := t.children.getD i t
        let s' := s.transition child.action (ds.headD 0) h c
        let res := selectLoop pick horizon h c fuel child s' ds.tail
        (i :: res.1, res.2.1, res.2.2)
    else ([], s, ds)

theorem get?_eq_getD {l : List α} {i : ℕ} (h : i < l.length) (d : α) :
    l.get? i = some (l.getD i d) := by
  cases hx : l.get? i with
  | none => exact absurd (List.get?_eq_none.mp hx) (Nat.not_le.mpr h)
  | some x => rw [List.getD_eq_get?, hx]; rfl

theorem selectLoop_valid (pick : MCTSTree → ℕ) (horizon : ℤ) (h c : ℚ) (fuel : ℕ) :
    ∀ (t : MCTSTree) (s : InventoryState) (ds : List ℚ),
      ∃ n, t.subtreeAt (selectLoop pick horizon h c fuel t s ds).1 = some n := by
  induction fuel with
  | zero => intro t s ds; exact ⟨t, rfl⟩
  | succ fuel ih =>
    intro t s ds
    simp only [selectLoop]
    split
    · split
      · exact ⟨t, rfl⟩
      · rename_i hlen
        have hlt : pick t % t.children.length < t.children.length :=
          Nat.mod_lt _ (Nat.pos_of_ne_zero hlen)
        obtain ⟨n, hn⟩ := ih (t.children.getD (pick t % t.children.length) t)
          (s.transition (t.children.getD (pick t % t.children.length) t).action (ds.headD 0) h c)
          ds.tail
        refine ⟨n, ?_⟩
        cases t with
        | node st a v w u ch =>
          simp only [MCTSTree.subtreeAt, MCTSTree.children_node]
          simp only [MCTSTree.children_node] at hlt hn ⊢
          rw [get?_eq_getD hlt (MCTSTree.node st a v w u ch)]
          exact hn
    · exact ⟨t, rfl⟩

mutual

/-- Depth of the tree, used as selection fuel: the selection loop descends
one child per turn, so it can take at most `treeDepth t` turns before
reaching a childless node and breaking. -/
def treeDepth : MCTSTree → ℕ
  | .node _ _ _ _ _ ch => 1 + treeDepthList ch

/-- Largest depth of a list of trees. -/
def treeDepthList : List MCTSTree → ℕ
  | [] => 0
  | c :: cs => max (treeDepth c) (treeDepthList cs)

end

/-- Random draws consumed by one MCTS iteration: the demands sampled
during selection, the demand sampled at expansion, and the action and
demand draws of the rollout. -/
structure IterDraws where
  selDemands : List ℚ
  expDemand : ℚ
  rolloutActs : List ℚ
  rolloutDems : List ℚ

/-- One iteration of the `for i in range(iterations)` loop of `_run_mcts`:
Selection from the root with a fresh day-0 state, Expansion when the
selected node still has untried actions and the state is not terminal
(action = head of the untried list, new child appended with a fresh full
copy of the action space), Simulation (rollout) from the resulting state,
and Backpropagation of the normalized reward along the path from the root
to the newly created node (or the selected node when nothing was
expanded). -/
def mctsIteration (pick : MCTSTree → ℕ) (action_space : List ℚ) (horizon : ℤ)
    (h c mp current_stock : ℚ) (draws : IterDraws) (t : MCTSTree) : MCTSTree :=
  let sel := selectLoop pick horizon h c (treeDepth t) t
    (InventoryState.mk current_stock 0 0) draws.selDemands
  let p := sel.1
  let s := sel.2.1
  match t.subtreeAt p with
  | none => t
  | some n =>
    if ¬ s.is_terminal horizon ∧ ¬ n.is_fully_expanded then
      let a := n.untried.headD 0
      let s2 := s.transition a draws.expDemand h c
      let t2 := t.expandAt p s2 action_space
      let fin := runRollout horizon h c (horizon - s2.day).toNat s2
        draws.rolloutActs draws.rolloutDems
      t2.backprop (p ++ [n.children.length]) (normalizedReward fin.total_cost mp)
    else
      let fin := runRollout horizon h c (horizon - s.day).toNat s
        draws.rolloutActs draws.rolloutDems
      t.backprop p (normalizedReward fin.total_cost mp)

/-- The `for i in range(iterations)` loop: apply `mctsIteration` the given
number of times, iteration `k` consuming the draws `draws k`. -/
def runIterations (pick : MCTSTree → ℕ) (action_space : List ℚ) (horizon : ℤ)
    (h c mp current_stock : ℚ) (draws : ℕ → IterDraws) : ℕ → MCTSTree → MCTSTree
  | 0, t => t
  | k + 1, t => mctsIteration pick action_space horizon h c mp current_stock (draws k)
      (runIterations pick action_space horizon h c mp current_stock draws k t)

/-- The division-by-zero guard invariant of C8: every child anywhere in
the tree has `visits ≥ 1`, and the root has `visits ≥ 1` as soon as it
has a child. -/
def selectionSafe (t : MCTSTree) : Prop :=
  TreeAll childVisits t ∧ (t.children ≠ [] → 1 ≤ t.visits)

theorem mctsIteration_selectionSafe (pick : MCTSTree → ℕ) (A : List ℚ) (horizon : ℤ)
    (h c mp stock : ℚ) (draws : IterDraws) (t : MCTSTree) (ht : selectionSafe t) :
    selectionSafe (mctsIteration pick A horizon h c mp stock draws t) := by
  simp only [mctsIteration]
  generalize (selectLoop pick horizon h c (treeDepth t) t
    (InventoryState.mk stock 0 0) draws.selDemands).1 = p
  cases hsub : t.subtreeAt p with
  | none => exact ht
  | some n =>
    dsimp only
    split
    · constructor
      · exact TreeAll_childVisits_expand_backprop _ _ _ _ _ _ hsub ht.1
      · intro _
        rw [MCTSTree.backprop_visits]
        omega
    · constructor
      · exact TreeAll_childVisits_backprop _ _ _ ht.1
      · intro _
        rw [MCTSTree.backprop_visits]
        omega

theorem subtree_visits_pos (p : List ℕ) :
    ∀ (t n : MCTSTree), TreeAll childVisits t → t.subtreeAt p = some n → p ≠ [] →
      1 ≤ n.visits := by
  induction p with
  | nil => intro t n _ _ hne; exact absurd rfl hne
  | cons i p ih =>
    intro t n ht hsub _
    cases t with
    | node st a v w u ch =>
      simp only [MCTSTree.subtreeAt, MCTSTree.children_node] at hsub
      cases hg : ch.get? i with
      | none => rw [hg] at hsub; cases hsub
      | some c =>
        rw [hg] at hsub
        have hc : c ∈ ch := List.get?_mem hg
        cases p with
        | nil =>
          have : c = n := Option.some.inj hsub
          subst this
          exact ht.self c hc
        | cons j q =>
          exact ih c n (ht.child (by simpa using hc)) hsub (by simp)

/-- C8: UCB1 in `best_child` never divides by zero nor takes `log` of a
nonpositive number.  The invariant `selectionSafe` (every child anywhere
has `visits ≥ 1`; a root with children has `visits ≥ 1`) holds for the
initial root and is preserved by every MCTS iteration (for every child
choice `pick`, hence for the UCB1 choice), because the freshly expanded
child is backpropagated into in the same iteration; and under the
invariant, every node the Selection phase can invoke `best_child` on
(a node reached from the root by descending children, having at least one
child) has `visits ≥ 1` and all its children have `visits ≥ 1`. -/
theorem ucb1_guard_invariant (stock : ℚ) (A : List ℚ) :
    selectionSafe (initRoot stock A) ∧
    (∀ (pick : MCTSTree → ℕ) (horizon : ℤ) (h c mp : ℚ) (draws : IterDraws)
      (t : MCTSTree), selectionSafe t →
        selectionSafe (mctsIteration pick A horizon h c mp stock draws t)) ∧
    (∀ (t n : MCTSTree) (p : List ℕ), selectionSafe t → t.subtreeAt p = some n →
      n.children ≠ [] → 1 ≤ n.visits ∧ ∀ c ∈ n.children, 1 ≤ c.visits) := by
  refine ⟨?_, ?_, ?_⟩
  · constructor
    · exact TreeAll.intro _ (fun c hc => by simp [initRoot] at hc)
        (fun c hc => by simp [initRoot] at hc)
    · intro hne; exact absurd rfl hne
  · intro pick horizon h c mp draws t ht
    exact mctsIteration_selectionSafe pick A horizon h c mp stock draws t ht
  · intro t n p ht hsub hne
    refine ⟨?_, TreeAll.subtree p ht.1 hsub⟩
    cases p with
    | nil =>
      have : t = n := Option.some.inj hsub
      subst this
      exact ht.2 hne
    | cons i q => exact subtree_visits_pos _ t n ht.1 hsub (by simp)

/-- Witness for C8: the invariant holds for the concrete root with stock 5
and action space [0, 1], is preserved by one concrete iteration, and at
the root path with a nonempty child list the visit bounds follow. -/
theorem ucb1_guard_invariant_witness :
    selectionSafe (initRoot 5 [0, 1]) ∧
    selectionSafe (mctsIteration (fun _ => 0) [0, 1] 3 1 50 300 5
      (IterDraws.mk [] 4 [2, 2, 2] [3, 3, 3]) (initRoot 5 [0, 1])) := by
  have h := ucb1_guard_invariant 5 [0, 1]
  exact ⟨h.1, h.2.1 (fun _ => 0) 3 1 50 300 (IterDraws.mk [] 4 [2, 2, 2] [3, 3, 3])
    (initRoot 5 [0, 1]) h.1⟩

/-- The C4 invariant at one node: the untried actions and the children's
actions together are a permutation of the full action space. -/
def untriedPartition (A : List ℚ) (t : MCTSTree) : Prop :=
  (t.untried ++ t.children.map MCTSTree.action).Perm A

theorem map_modifyAt (f : α → α) (g : α → β) (l : List α) (i : ℕ)
    (hg : ∀ x, g (f x) = g x) : (modifyAt f l i).map g = l.map g := by
  induction l generalizing i with
  | nil => rfl
  | cons x xs ih => cases i with
    | zero => simp [modifyAt, hg]
    | succ n => simp [modifyAt, ih]

theorem TreeAll_partition_backprop (A : List ℚ) (p : List ℕ) (r : ℚ) :
    ∀ t : MCTSTree, TreeAll (untriedPartition A) t →
      TreeAll (untriedPartition A) (t.backprop p r) := by
  induction p with
  | nil =>
    intro t h
    cases t with
    | node st a v w u ch =>
      exact TreeAll.intro _ h.self (fun c hc => h.child hc)
  | cons i p ih =>
    intro t h
    cases t with
    | node st a v w u ch =>
      refine TreeAll.intro _ ?_ ?_
      · have hmap : (modifyAt (fun c => c.backprop p r) ch i).map MCTSTree.action
            = ch.map MCTSTree.action :=
          map_modifyAt _ _ _ _ (fun x => MCTSTree.backprop_action x p r)
        show untriedPartition A (MCTSTree.node st a (v + 1) (w + r) u
          (modifyAt (fun c => c.backprop p r) ch i))
        unfold untriedPartition
        simp only [MCTSTree.untried_node, MCTSTree.children_node, hmap]
        exact h.self
      · intro c hc
        rcases mem_modifyAt _ _ _ _ hc with hmem | ⟨y, hy, rfl⟩
        · exact h.child hmem
        · exact ih y (h.child (by simpa using List.get?_mem hy))

theorem TreeAll_partition_expandAt (s : InventoryState) (A : List ℚ) (p : List ℕ) :
    ∀ (t n : MCTSTree), t.subtreeAt p = some n → n.untried ≠ [] →
      TreeAll (untriedPartition A) t →
      TreeAll (untriedPartition A) (t.expandAt p s A) := by
  induction p with
  | nil =>
    intro t n hsub hne h
    have hn : t = n := Option.some.inj hsub
    subst hn
    cases t with
    | node st a v w u ch =>
      simp only [MCTSTree.untried_node] at hne
      cases u with
      | nil => exact absurd rfl hne
      | cons a0 u0 =>
        simp only [MCTSTree.expandAt, MCTSTree.add_child, MCTSTree.untried_node,
          List.headD_cons, List.erase_cons_head]
        refine TreeAll.intro _ ?_ ?_
        · have hself : ((a0 :: u0) ++ ch.map MCTSTree.action).Perm A := h.self
          have hstep : ((u0 ++ ch.map MCTSTree.action) ++ [a0]).Perm
              ((a0 :: u0) ++ ch.map MCTSTree.action) := by
            have h2 := @List.perm_append_comm _ (u0 ++ ch.map MCTSTree.action) [a0]
            simpa using h2
          show untriedPartition A (MCTSTree.node st a v w u0
            (ch ++ [MCTSTree.node s a0 0 0 A []]))
          unfold untriedPartition
          simp only [MCTSTree.untried_node, MCTSTree.children_node, List.map_append,
            List.map_cons, List.map_nil, MCTSTree.action_node]
          rw [← List.append_assoc]
          exact hstep.trans hself
        · intro c hc
          simp only [MCTSTree.children_node] at hc
          rcases List.mem_append.mp hc with hmem | hmem
          · exact h.child hmem
          · simp only [List.mem_singleton] at hmem
            subst hmem
            refine TreeAll.intro _ ?_ (fun c hc => by simp at hc)
            unfold untriedPartition
            simp
  | cons i p ih =>
    intro t n hsub hne h
    cases t with
    | node st a v w u ch =>
      simp only [MCTSTree.subtreeAt, MCTSTree.children_node] at hsub
      cases hg : ch.get? i with
      | none => rw [hg] at hsub; cases hsub
      | some c =>
        rw [hg] at hsub
        simp only [MCTSTree.expandAt]
        refine TreeAll.intro _ ?_ ?_
        · have hmap : (modifyAt (fun x => x.expandAt p s A) ch i).map MCTSTree.action
              = ch.map MCTSTree.action :=
            map_modifyAt _ _ _ _ (fun x => MCTSTree.expandAt_action x p s A)

          show (u ++ (modifyAt (fun x => x.expandAt p s A) ch i).map MCTSTree.action).Perm A
          rw [hmap]
          exact h.self
        · intro x hx
          rcases mem_modifyAt _ _ _ _ hx with hmem | ⟨y, hy, rfl⟩
          · exact h.child hmem
          · have hyc : y = c := by rw [hg] at hy; exact (Option.some.inj hy).symm
            subst hyc
            exact ih y n hsub hne (h.child (by simpa using List.get?_mem hg))

theorem mctsIteration_partition (pick : MCTSTree → ℕ) (A : List ℚ) (horizon : ℤ)
    (h c mp stock : ℚ) (draws : IterDraws) (t : MCTSTree)
    (ht : TreeAll (untriedPartition A) t) :
    TreeAll (untriedPartition A) (mctsIteration pick A horizon h c mp stock draws t) := by
  simp only [mctsIteration]
  generalize (selectLoop pick horizon h c (treeDepth t) t
    (InventoryState.mk stock 0 0) draws.selDemands).1 = p
  cases hsub : t.subtreeAt p with
  | none => exact ht
  | some n =>
    dsimp only
    split
    · rename_i hcond
      exact TreeAll_partition_backprop A _ _ _
        (TreeAll_partition_expandAt _ A p t n hsub hcond.2 ht)
    · exact TreeAll_partition_backprop A _ _ _ ht

theorem subtreeAt_expandAt_self (s : InventoryState) (A : List ℚ) (p : List ℕ) :
    ∀ (t n : MCTSTree), t.subtreeAt p = some n →
      (t.expandAt p s A).subtreeAt p
        = some (MCTSTree.node n.state n.action n.visits n.total_reward
            (n.untried.erase (n.untried.headD 0))
            (n.children ++ [MCTSTree.node s (n.untried.headD 0) 0 0 A []])) := by
  induction p with
  | nil =>
    intro t n hsub
    have hn : t = n := Option.some.inj hsub
    subst hn
    cases t with
    | node st a v w u ch => rfl
  | cons i p ih =>
    intro t n hsub
    cases t with
    | node st a v w u ch =>
      simp only [MCTSTree.subtreeAt, MCTSTree.children_node] at hsub
      cases hg : ch.get? i with
      | none => rw [hg] at hsub; cases hsub
      | some c =>
        rw [hg] at hsub
        simp only [MCTSTree.expandAt, MCTSTree.subtreeAt, MCTSTree.children_node]
        rw [get?_modifyAt, if_pos rfl, hg]
        exact ih c n hsub

theorem untried_expandAt_other (s : InventoryState) (A : List ℚ) :
    ∀ (q p : List ℕ) (t m : MCTSTree), q ≠ p → t.subtreeAt q = some m →
      ∃ m', (t.expandAt p s A).subtreeAt q = some m' ∧ m'.untried = m.untried := by
  intro q
  induction q with
  | nil =>
    intro p t m hne hsub
    have hm : t = m := Option.some.inj hsub
    subst hm
    cases p with
    | nil => exact absurd rfl hne
    | cons i p =>
      cases t with
      | node st a v w u ch => exact ⟨_, rfl, rfl⟩
  | cons j q ih =>
    intro p t m hne hsub
    cases t with
    | node st a v w u ch =>
      simp only [MCTSTree.subtreeAt, MCTSTree.children_node] at hsub
      cases hg : ch.get? j with
      | none => rw [hg] at hsub; cases hsub
      | some c =>
        rw [hg] at hsub
        have hjlen : j < ch.length := by
          by_contra hcon
          rw [List.get?_eq_none.mpr (Nat.le_of_not_lt hcon)] at hg
          cases hg
        cases p with
        | nil =>
          cases u with
          | nil =>
            refine ⟨m, ?_, rfl⟩
            simp only [MCTSTree.expandAt, MCTSTree.add_child, MCTSTree.subtreeAt,
              MCTSTree.children_node, MCTSTree.untried_node]
            rw [List.get?_append hjlen, hg]
            exact hsub
          | cons a0 u0 =>
            refine ⟨m, ?_, rfl⟩
            simp only [MCTSTree.expandAt, MCTSTree.add_child, MCTSTree.subtreeAt,
              MCTSTree.children_node, MCTSTree.untried_node]
            rw [List.get?_append hjlen, hg]
            exact hsub
        | cons i p =>
          simp only [MCTSTree.expandAt, MCTSTree.subtreeAt, MCTSTree.children_node]
          rw [get?_modifyAt]
          by_cases hij : i = j
          · subst hij
            rw [if_pos rfl, hg]
            by_cases hqp : q = p
            · exact absurd (by rw [hqp]) hne
            · exact ih p c m hqp hsub
          · rw [if_neg hij, hg]
            exact ⟨m, hsub, rfl⟩

/-- C4: at every point of the run, every node's untried-action list and its
children's actions form a partition of the action space: the invariant holds
at the initial root, is preserved by every MCTS iteration, and at every node
reachable by a child path the two lists concatenate to a permutation of the
action space (disjointly, when the action space has no duplicates, as the
one built by `sorted(list(set(...)))` does).  Moreover an expansion removes
exactly the expanded action (the head of the untried list) from the expanded
node's untried list, appends a child owning a fresh full copy of the action
space, and leaves the untried list of every other node unchanged. -/
theorem untried_partition_invariant (stock : ℚ) (A : List ℚ) :
    TreeAll (untriedPartition A) (initRoot stock A) ∧
    (∀ (pick : MCTSTree → ℕ) (horizon : ℤ) (h c mp : ℚ) (draws : IterDraws)
      (t : MCTSTree), TreeAll (untriedPartition A) t →
        TreeAll (untriedPartition A) (mctsIteration pick A horizon h c mp stock draws t)) ∧
    (∀ (t n : MCTSTree) (p : List ℕ), TreeAll (untriedPartition A) t →
      t.subtreeAt p = some n →
        (n.untried ++ n.children.map MCTSTree.action).Perm A ∧
        (A.Nodup → n.untried.Disjoint (n.children.map MCTSTree.action))) ∧
    (∀ (t n : MCTSTree) (p : List ℕ) (s : InventoryState), t.subtreeAt p = some n →
      n.untried ≠ [] →
      (t.expandAt p s A).subtreeAt p
        = some (MCTSTree.node n.state n.action n.visits n.total_reward
            (n.untried.erase (n.untried.headD 0))
            (n.children ++ [MCTSTree.node s (n.untried.headD 0) 0 0 A []]))) ∧
    (∀ (t m : MCTSTree) (p q : List ℕ) (s : InventoryState), q ≠ p →
      t.subtreeAt q = some m →
      ∃ m', (t.expandAt p s A).subtreeAt q = some m' ∧ m'.untried = m.untried) := by
  refine ⟨?_, ?_, ?_, ?_, ?_⟩
  · refine TreeAll.intro _ ?_ (fun c hc => by simp [initRoot] at hc)
    show ((initRoot stock A).untried ++ List.map MCTSTree.action
      (initRoot stock A).children).Perm A
    simp [initRoot]
  · intro pick horizon h c mp draws t ht
    exact mctsIteration_partition pick A horizon h c mp stock draws t ht
  · intro t n p ht hsub
    have hperm : (n.untried ++ n.children.map MCTSTree.action).Perm A :=
      TreeAll.subtree p ht hsub
    refine ⟨hperm, ?_⟩
    intro hnd
    have hnodup : (n.untried ++ n.children.map MCTSTree.action).Nodup :=
      (hperm.nodup_iff).mpr hnd
    exact (List.nodup_append.mp hnodup).2.2
  · intro t n p s hsub _
    exact subtreeAt_expandAt_self s A p t n hsub
  · intro t m p q s hne hsub
    exact untried_expandAt_other s A q p t m hne hsub

/-- Witness for C4: concrete root with stock 7 and action space [0, 2, 5];
the partition invariant is established there, preserved by one concrete
iteration, and yields the partition and disjointness at the root node. -/
theorem untried_partition_invariant_witness :
    TreeAll (untriedPartition [0, 2, 5]) (initRoot 7 [0, 2, 5]) ∧
    TreeAll (untriedPartition [0, 2, 5])
      (mctsIteration (fun _ => 0) [0, 2, 5] 3 1 50 900 7
        (IterDraws.mk [] 4 [2, 2, 2] [3, 3, 3]) (initRoot 7 [0, 2, 5])) ∧
    ((initRoot 7 [0, 2, 5]).untried ++
        (initRoot 7 [0, 2, 5]).children.map MCTSTree.action).Perm [0, 2, 5] ∧
    (List.Nodup [(0:ℚ), 2, 5] →
      (initRoot 7 [0, 2, 5]).untried.Disjoint
        ((initRoot 7 [0, 2, 5]).children.map MCTSTree.action)) := by
  have h := untried_partition_invariant 7 [0, 2, 5]
  have hroot := h.2.2.1 (initRoot 7 [0, 2, 5]) (initRoot 7 [0, 2, 5]) [] h.1 rfl
  exact ⟨h.1, h.2.1 (fun _ => 0) 3 1 50 900 (IterDraws.mk [] 4 [2, 2, 2] [3, 3, 3])
    (initRoot 7 [0, 2, 5]) h.1, hroot.1, hroot.2⟩

/-- Semantics of Python `max(items, key=f)` : scan left to right keeping
the current best, replacing it only on a strictly greater key, so the
first element attaining the maximal key is returned. -/
def maxByKey [LinearOrder β] (key : α → β) : α → List α → α
  | b, [] => b
  | b, x :: xs => maxByKey key (if key b < key x then x else b) xs

theorem le_key_maxByKey [LinearOrder β] (key : α → β) (xs : List α) :
    ∀ b : α, key b ≤ key (maxByKey key b xs) := by
  induction xs with
  | nil => intro b; exact le_refl _
  | cons x xs ih =>
    intro b
    simp only [maxByKey]
    by_cases h : key b < key x
    · rw [if_pos h]; exact le_trans (le_of_lt h) (ih x)
    · rw [if_neg h]; exact ih b

theorem maxByKey_split [LinearOrder β] (key : α → β) (xs : List α) :
    ∀ b : α, ∃ l1 l2, b :: xs = l1 ++ maxByKey key b xs :: l2 ∧
      (∀ y ∈ l1, key y < key (maxByKey key b xs)) ∧
      (∀ y ∈ l2, key y ≤ key (maxByKey key b xs)) := by
  induction xs with
  | nil => intro b; exact ⟨[], [], rfl, by simp, by simp⟩
  | cons x xs ih =>
    intro b
    by_cases hbx : key b < key x
    · obtain ⟨l1, l2, heq, h1, h2⟩ := ih x
      have hred : maxByKey key b (x :: xs) = maxByKey key x xs := by
        simp [maxByKey, if_pos hbx]
      rw [hred]
      refine ⟨b :: l1, l2, ?_, ?_, h2⟩
      · simp only [List.cons_append]
        rw [← heq]
      · intro y hy
        rcases List.mem_cons.mp hy with rfl | hy2
        · exact lt_of_lt_of_le hbx (le_key_maxByKey key xs x)
        · exact h1 y hy2
    · obtain ⟨l1, l2, heq, h1, h2⟩ := ih b
      have hred : maxByKey key b (x :: xs) = maxByKey key b xs := by
        simp [maxByKey, if_neg hbx]
      rw [hred]
      cases l1 with
      | nil =>
        simp only [List.nil_append, List.cons.injEq] at heq
        obtain ⟨hb, hxs⟩ := heq
        refine ⟨[], x :: l2, ?_, by simp, ?_⟩
        · show b :: x :: xs = maxByKey key b xs :: x :: l2
          rw [← hb, ← hxs]
        · intro y hy
          rcases List.mem_cons.mp hy with rfl | hy2
          · rw [← hb]; exact le_of_not_lt hbx
          · exact h2 y hy2
      | cons z l1t =>
        simp only [List.cons_append, List.cons.injEq] at heq
        obtain ⟨hz, hxs⟩ := heq
        subst hz
        have hbr : key b < key (maxByKey key b xs) := h1 b (by simp)
        refine ⟨b :: x :: l1t, l2, ?_, ?_, h2⟩
        · show b :: x :: xs = b :: x :: (l1t ++ maxByKey key b xs :: l2)
          rw [← hxs]
        · intro y hy
          rcases List.mem_cons.mp hy with rfl | hy2
          · exact hbr
          · rcases List.mem_cons.mp hy2 with rfl | hy3
            · exact lt_of_le_of_lt (le_of_not_lt hbx) hbr
            · exact h1 y (by simp [hy3])

/-- Result dictionary of `_run_mcts` (best-action extraction and result
synthesis, and the degenerate childless-root dictionary). -/
structure MCTSResult where
  reorder_point : ℚ
  order_quantity : ℚ
  safety_stock : ℚ
  expected_cost : ℚ
  explored_states : ℕ
  computation_time_ms : ℚ
  deriving DecidableEq

/-- Best-action extraction of `_run_mcts`: with a childless root, return
the all-zero dictionary; otherwise pick
`best_child = max(root.children, key=lambda c: c.visits)` and return
`reorder_point = mean_demand * 1.5`, `order_quantity = best_child.action`,
`safety_stock = std_demand * 1.65`,
`expected_cost = (1.0 - best_child.total_reward / best_child.visits) * max_penalty`,
with the explored-state count and elapsed milliseconds passed through.
The standard deviation of the demand history and the elapsed time are
inputs here because they play no role in any claim about this function. -/
def extractResult (root : MCTSTree) (mean_demand std_demand mp : ℚ)
    (explored : ℕ) (time_ms : ℚ) : MCTSResult :=
  match root.children with
  | [] => MCTSResult.mk 0 0 0 0 0 0
  | c :: cs =>
    MCTSResult.mk (mean_demand * 1.5) (maxByKey MCTSTree.visits c cs).action
      (std_demand * 1.65)
      ((1 - (maxByKey MCTSTree.visits c cs).total_reward
          / ((maxByKey MCTSTree.visits c cs).visits : ℚ)) * mp)
      explored time_ms

/-- C5: with a nonempty child list at the root, best-action extraction
returns the first child of highest visit count (not highest average
reward), the reported order quantity is that child's action and the
expected cost is `(1 - its average reward) * maxPenalty`; and for a
single-child root whose child has 1 visit and reward 4/5 = 0.8, that child
is returned with `expected_cost = (1/5) * maxPenalty = 0.2 * maxPenalty`. -/
theorem best_action_extraction (root : MCTSTree) (m sd mp : ℚ) (e : ℕ) (tm : ℚ)
    (c : MCTSTree) (cs : List MCTSTree) (hch : root.children = c :: cs) :
    (∃ best l1 l2, root.children = l1 ++ best :: l2 ∧
      (∀ y ∈ l1, y.visits < best.visits) ∧
      (∀ y ∈ l2, y.visits ≤ best.visits) ∧
      (extractResult root m sd mp e tm).order_quantity = best.action ∧
      (extractResult root m sd mp e tm).expected_cost
        = (1 - best.total_reward / (best.visits : ℚ)) * mp) ∧
    (∀ (st s1 : InventoryState) (ra a : ℚ) (u u1 : List ℚ) (v : ℕ) (w : ℚ),
      extractResult (MCTSTree.node st ra v w u [MCTSTree.node s1 a 1 (4/5) u1 []])
          m sd mp e tm
        = MCTSResult.mk (m * 1.5) a (sd * 1.65) ((1/5) * mp) e tm) := by
  constructor
  · obtain ⟨l1, l2, heq, h1, h2⟩ := maxByKey_split MCTSTree.visits cs c
    refine ⟨maxByKey MCTSTree.visits c cs, l1, l2, ?_, h1, h2, ?_, ?_⟩
    · rw [hch]; exact heq
    · cases root with
      | node st a v w u ch =>
        simp only [MCTSTree.children_node] at hch
        subst hch
        rfl
    · cases root with
      | node st a v w u ch =>
        simp only [MCTSTree.children_node] at hch
        subst hch
        rfl
  · intro st s1 ra a u u1 v w
    simp only [extractResult, MCTSTree.children_node, maxByKey,
      MCTSTree.total_reward_node, MCTSTree.visits_node, MCTSTree.action_node]
    norm_num [MCTSResult.mk.injEq]

/-- Witness for C5 at a concrete two-child root (visits 3 and 5): the
second child wins and the reported fields follow. -/
theorem best_action_extraction_witness :
    (MCTSTree.node (InventoryState.mk 20 0 0) 0 8 6 []
      [MCTSTree.node (InventoryState.mk 10 1 0) 2 3 2 [] [],
       MCTSTree.node (InventoryState.mk 5 1 0) 7 5 4 [] []]).children
      = MCTSTree.node (InventoryState.mk 10 1 0) 2 3 2 [] []
        :: [MCTSTree.node (InventoryState.mk 5 1 0) 7 5 4 [] []] ∧
    (∃ best l1 l2,
      (MCTSTree.node (InventoryState.mk 20 0 0) 0 8 6 []
        [MCTSTree.node (InventoryState.mk 10 1 0) 2 3 2 [] [],
         MCTSTree.node (InventoryState.mk 5 1 0) 7 5 4 [] []]).children
          = l1 ++ best :: l2 ∧
      (∀ y ∈ l1, y.visits < best.visits) ∧
      (∀ y ∈ l2, y.visits ≤ best.visits) ∧
      (extractResult (MCTSTree.node (InventoryState.mk 20 0 0) 0 8 6 []
        [MCTSTree.node (InventoryState.mk 10 1 0) 2 3 2 [] [],
         MCTSTree.node (InventoryState.mk 5 1 0) 7 5 4 [] []]) 10 4 3000 9 25).order_quantity
          = best.action ∧
      (extractResult (MCTSTree.node (InventoryState.mk 20 0 0) 0 8 6 []
        [MCTSTree.node (InventoryState.mk 10 1 0) 2 3 2 [] [],
         MCTSTree.node (InventoryState.mk 5 1 0) 7 5 4 [] []]) 10 4 3000 9 25).expected_cost
          = (1 - best.total_reward / (best.visits : ℚ)) * 3000) := by
  have h := best_action_extraction
    (MCTSTree.node (InventoryState.mk 20 0 0) 0 8 6 []
      [MCTSTree.node (InventoryState.mk 10 1 0) 2 3 2 [] [],
       MCTSTree.node (InventoryState.mk 5 1 0) 7 5 4 [] []]) 10 4 3000 9 25
    (MCTSTree.node (InventoryState.mk 10 1 0) 2 3 2 [] [])
    [MCTSTree.node (InventoryState.mk 5 1 0) 7 5 4 [] []] rfl
  exact ⟨rfl, h.1⟩

/-- C6: a childless root yields the all-zero degenerate result in every
field, and zero iterations leave the initial root unchanged and childless,
so with `iterations = 0` the extraction necessarily returns the all-zero
result (the model is total, so no exception is possible). -/
theorem childless_root_degenerate (root : MCTSTree) (m sd mp tm stock : ℚ) (e : ℕ)
    (A : List ℚ) (pick : MCTSTree → ℕ) (horizon : ℤ) (h c mp2 : ℚ)
    (draws : ℕ → IterDraws) (hch : root.children = []) :
    extractResult root m sd mp e tm = MCTSResult.mk 0 0 0 0 0 0 ∧
    runIterations pick A horizon h c mp2 stock draws 0 (initRoot stock A)
      = initRoot stock A ∧
    (initRoot stock A).children = [] ∧
    extractResult (runIterations pick A horizon h c mp2 stock draws 0 (initRoot stock A))
      m sd mp e tm = MCTSResult.mk 0 0 0 0 0 0 := by
  refine ⟨?_, rfl, rfl, rfl⟩
  cases root with
  | node st a v w u ch =>
    simp only [MCTSTree.children_node] at hch
    subst hch
    rfl

/-- Witness for C6 at concrete parameters: the childless node and the
zero-iteration run both extract to the all-zero result. -/
theorem childless_root_degenerate_witness :
    (MCTSTree.node (InventoryState.mk 40 0 0) 0 17 9 [0, 5] []).children = [] ∧
    extractResult (MCTSTree.node (InventoryState.mk 40 0 0) 0 17 9 [0, 5] [])
      10 4 3000 9 25 = MCTSResult.mk 0 0 0 0 0 0 ∧
    extractResult (runIterations (fun _ => 0) [0, 5, 10] 30 5 50 30000 40
      (fun _ => IterDraws.mk [] 0 [] []) 0 (initRoot 40 [0, 5, 10]))
      10 4 30000 0 0 = MCTSResult.mk 0 0 0 0 0 0 := by
  have h := childless_root_degenerate
    (MCTSTree.node (InventoryState.mk 40 0 0) 0 17 9 [0, 5] [])
    10 4 3000 25 40 9 [0, 5, 10] (fun _ => 0) 30 5 50 30000
    (fun _ => IterDraws.mk [] 0 [] []) rfl
  have h2 := childless_root_degenerate
    (MCTSTree.node (InventoryState.mk 40 0 0) 0 17 9 [0, 5] [])
    10 4 30000 0 40 0 [0, 5, 10] (fun _ => 0) 30 5 50 30000
    (fun _ => IterDraws.mk [] 0 [] []) rfl
  exact ⟨rfl, h.1, h2.2.2.2⟩

/-- UCB1 score used by `MCTSNode.best_child`:
`(c.total_reward / c.visits) + exploration_weight * math.sqrt(math.log(self.visits) / c.visits)`. -/
noncomputable def ucb1 (w : ℝ) (parent_visits : ℕ) (c : MCTSTree) : ℝ :=
  (c.total_reward : ℝ) / (c.visits : ℝ)
    + w * Real.sqrt (Real.log (parent_visits : ℝ) / (c.visits : ℝ))

/-- `MCTSNode.best_child(exploration_weight)`: return self when childless
(safety valve), otherwise `max(self.children, key=ucb1)`; the code's
default argument is the literal `exploration_weight = 1.414`. -/
noncomputable def MCTSTree.best_child (t : MCTSTree) (w : ℝ) : MCTSTree :=
  match t.children with
  | [] => t
  | c :: cs => maxByKey (ucb1 w t.visits) c cs

/-- Selector following the specification text instead of the code: UCB1
with the exploration constant C equal to the square root of two. -/
noncomputable def bestChildSpec (t : MCTSTree) : MCTSTree :=
  t.best_child (Real.sqrt 2)

/-- First child of the C3 counterexample node: action 0, 1 visit, reward 0. -/
def cexChild1 : MCTSTree := .node (InventoryState.mk 3 1 0) 0 1 0 [] []

/-- Second child of the C3 counterexample node: action 5, 3 visits,
accumulated reward 2.1111 (average 0.7037). -/
def cexChild2 : MCTSTree := .node (InventoryState.mk 6 1 0) 5 3 (21111/10000) [] []

/-- The C3 counterexample node: fully expanded, 4 visits, the two children
above.  Its two UCB1 rankings with weight 1.414 and weight sqrt 2 differ. -/
def cexNode : MCTSTree := .node (InventoryState.mk 9 0 0) 0 4 2 [] [cexChild1, cexChild2]

theorem log_four_eq : Real.log 4 = 2 * Real.log 2 := by
  rw [show (4:ℝ) = 2 ^ 2 by norm_num, Real.log_pow]
  push_cast
  ring

theorem sqrt_log_four_lt : Real.sqrt (Real.log 4) < 1.1774101 := by
  rw [log_four_eq, Real.sqrt_lt' (by norm_num)]
  nlinarith [Real.log_two_lt_d9]

theorem sqrt_log_four_gt : (1.17741 : ℝ) < Real.sqrt (Real.log 4) := by
  rw [log_four_eq, Real.lt_sqrt (by norm_num)]
  nlinarith [Real.log_two_gt_d9]

theorem sqrt_log_four_third_lt : Real.sqrt (Real.log 4 / 3) < 0.679778 := by
  rw [log_four_eq, Real.sqrt_lt' (by norm_num)]
  nlinarith [Real.log_two_lt_d9]

theorem sqrt_log_four_third_gt : (0.6797779 : ℝ) < Real.sqrt (Real.log 4 / 3) := by
  rw [log_four_eq, Real.lt_sqrt (by norm_num)]
  nlinarith [Real.log_two_gt_d9]

theorem sqrt_two_gt : (1.4142135 : ℝ) < Real.sqrt 2 := by
  rw [Real.lt_sqrt (by norm_num)]
  norm_num

theorem sqrt_log_four_third_eq :
    Real.sqrt (Real.log 4 / 3) = Real.sqrt (Real.log 4) / Real.sqrt 3 := by
  exact Real.sqrt_div (Real.log_nonneg (by norm_num)) 3

theorem cex_ucb1_code : ucb1 1.414 cexNode.visits cexChild1
    < ucb1 1.414 cexNode.visits cexChild2 := by
  have hs := sqrt_log_four_lt
  have ht := sqrt_log_four_third_gt
  rw [sqrt_log_four_third_eq] at ht
  simp only [ucb1, cexNode, cexChild1, cexChild2, MCTSTree.visits_node,
    MCTSTree.total_reward_node]
  push_cast
  norm_num
  nlinarith [hs, ht]

theorem cex_ucb1_spec : ucb1 (Real.sqrt 2) cexNode.visits cexChild2
    < ucb1 (Real.sqrt 2) cexNode.visits cexChild1 := by
  have hs := sqrt_log_four_gt
  have ht := sqrt_log_four_third_lt
  rw [sqrt_log_four_third_eq] at ht
  have h2 := sqrt_two_gt
  have hk : (0.497632 : ℝ)
      < Real.sqrt (Real.log 4) - Real.sqrt (Real.log 4) / Real.sqrt 3 := by
    linarith
  have hprod : (1.4142135 : ℝ) * 0.497632
      < Real.sqrt 2 * (Real.sqrt (Real.log 4) - Real.sqrt (Real.log 4) / Real.sqrt 3) := by
    have h0 : (0 : ℝ) ≤ 1.4142135 := by norm_num
    have h1 : (0 : ℝ) ≤ 0.497632 := by norm_num
    exact mul_lt_mul'' h2 hk h0 h1
  simp only [ucb1, cexNode, cexChild1, cexChild2, MCTSTree.visits_node,
    MCTSTree.total_reward_node]
  push_cast
  norm_num
  nlinarith [hprod]

/-- Counterexample to C3 as stated: at the concrete fully expanded node
`cexNode` (4 parent visits; children with visits 1, reward 0 and visits 3,
reward 2.1111), the child selected by the code's `best_child` (exploration
weight 1.414) is not the child maximizing UCB1 with C = sqrt 2: the code
picks the second child, the sqrt-2 rule picks the first. -/
theorem selection_weight_counterexample :
    cexNode.best_child 1.414 ≠ bestChildSpec cexNode := by
  have hA := cex_ucb1_code
  have hB := cex_ucb1_spec
  have h1 : cexNode.best_child 1.414 = cexChild2 := by
    show maxByKey (ucb1 1.414 cexNode.visits) cexChild1 [cexChild2] = cexChild2
    simp only [maxByKey]
    rw [if_pos hA]
  have h2 : bestChildSpec cexNode = cexChild1 := by
    show maxByKey (ucb1 (Real.sqrt 2) cexNode.visits) cexChild1 [cexChild2] = cexChild1
    simp only [maxByKey]
    rw [if_neg (not_lt.mpr (le_of_lt hB))]
  rw [h1, h2]
  intro hcon
  have := congrArg MCTSTree.action hcon
  simp [cexChild1, cexChild2] at this

/-- C3 amended: with the code's fixed exploration constant C = 1.414 (not
sqrt 2), for every fully expanded node with at least one child,
`best_child` descends to the child maximizing
UCB1 = total_reward/visits + C * sqrt(ln(parent visits)/visits), and ties
are broken in favour of the first maximal child in the stable child order
(the lowest action index, children being created in action order). -/
theorem best_child_maximizes_ucb1 (t : MCTSTree) (c : MCTSTree) (cs : List MCTSTree)
    (hfe : t.is_fully_expanded) (hch : t.children = c :: cs) :
    ∃ l1 l2, t.children = l1 ++ t.best_child 1.414 :: l2 ∧
      (∀ y ∈ l1, ucb1 1.414 t.visits y < ucb1 1.414 t.visits (t.best_child 1.414)) ∧
      (∀ y ∈ l2, ucb1 1.414 t.visits y ≤ ucb1 1.414 t.visits (t.best_child 1.414)) := by
  have hbc : t.best_child 1.414 = maxByKey (ucb1 1.414 t.visits) c cs := by
    cases t with
    | node st a v w u ch =>
      simp only [MCTSTree.children_node] at hch
      subst hch
      rfl
  obtain ⟨l1, l2, heq, h1, h2⟩ := maxByKey_split (ucb1 1.414 t.visits) cs c
  rw [hbc, hch]
  exact ⟨l1, l2, heq, h1, h2⟩

/-- Witness for the amended C3 at the concrete node `cexNode`. -/
theorem best_child_maximizes_ucb1_witness :
    cexNode.is_fully_expanded ∧
    ∃ l1 l2, cexNode.children = l1 ++ cexNode.best_child 1.414 :: l2 ∧
      (∀ y ∈ l1, ucb1 1.414 cexNode.visits y
        < ucb1 1.414 cexNode.visits (cexNode.best_child 1.414)) ∧
      (∀ y ∈ l2, ucb1 1.414 cexNode.visits y
        ≤ ucb1 1.414 cexNode.visits (cexNode.best_child 1.414)) := by
  exact ⟨rfl, best_child_maximizes_ucb1 cexNode cexChild1 [cexChild2] rfl rfl⟩

/-- One column of the dataset handed to `process` (the DataFrame built by
`pd.DataFrame(request.context["dataset"])`): its name, its cells (`none`
models a NaN cell, removed by `dropna()`), and whether its pandas dtype is
numeric (`select_dtypes(include=[np.number])`). -/
structure DataColumn where
  name : String
  values : List (Option ℚ)
  numeric : Bool
  deriving DecidableEq

/-- Python `col.lower() in c.lower()`: case-insensitive substring test on
column names (per-character ASCII lowercasing of the character lists, the
behaviour of `str.lower` on the ASCII column names involved). -/
def nameMatches (key colName : String) : Prop :=
  key.toList.map Char.toLower <:+: colName.toList.map Char.toLower

instance (key colName : String) : Decidable (nameMatches key colName) :=
  List.decidableInfix _ _

/-- `demand_cols = ['demand', 'sales', 'quantity', 'units_sold', 'qty']`. -/
def demandCols : List String := ["demand", "sales", "quantity", "units_sold", "qty"]

/-- `stock_cols = ['stock', 'inventory', 'current_stock', 'on_hand']`. -/
def stockCols : List String := ["stock", "inventory", "current_stock", "on_hand"]

/-- `series.dropna().values`: the non-NaN cells in order. -/
def dropna (v : List (Option ℚ)) : List ℚ := v.filterMap id

/-- `matching = [c for c in df.columns if col.lower() in c.lower()]` followed
by `matching[0]`: the first column whose name contains the key. -/
def findMatching (key : String) (cols : List DataColumn) : Option DataColumn :=
  cols.find? (fun c => decide (nameMatches key c.name))

/-- `_extract_demand`: the first demand-key with a matching column wins and
its column is used after `dropna`; otherwise the first numeric column after
`dropna`; otherwise the empty series (`np.array([])`). -/
def extractDemand (cols : List DataColumn) : List ℚ :=
  match demandCols.findSome? (fun key => findMatching key cols) with
  | some col => dropna col.values
  | none =>
    match cols.find? (fun c => c.numeric) with
    | some col => dropna col.values
    | none => []

/-- `_get_current_stock`: the last cell of the first stock-like column
(a NaN last cell is modelled as 0; no claim depends on that cell), else
`float(np.mean(demand_data) * 2)`. -/
def getCurrentStock (cols : List DataColumn) (demand_data : List ℚ) : ℚ :=
  match stockCols.findSome? (fun key => findMatching key cols) with
  | some col => (col.values.getLastD (some 0)).getD 0
  | none => listMean demand_data * 2

/-- Modelled `AgentResponse` of `process`: the success flag and error
string, and the response fields the claims mention (savings amount and
percentage, the optimizer result, the baseline cost). -/
structure AgentResponse where
  success : Bool
  error : Option String
  savings_amount : Option ℚ
  savings_percentage : Option ℚ
  optimal : Option MCTSResult
  baseline_cost : Option ℚ
  deriving DecidableEq

/-- Control flow of `MCTSOptimizerAgent.process`.  The surrounding
`try/except` returns `AgentResponse(success=False, error=str(e))` on any
exception; the only raising operation on this path is the percentage
division `(baseline_cost - expected_cost) / baseline_cost`, which raises
`ZeroDivisionError: float division by zero` (all operands are Python
floats) when `baseline_cost == 0` — the code has no zero guard, so that
branch is the caught-exception failure response.  The optimizer result
(`_run_mcts`, modelled by `runIterations` and `extractResult`) and the
demand path sampled inside `_calculate_baseline_cost` are parameters here
because every claim about `process` holds for all their values; the LLM
interpretation call is an out-of-scope external collaborator. -/
def process (dataset : Option (List DataColumn)) (optimal : MCTSResult)
    (baselineDemands : List ℚ) (holding_cost stockout_cost : ℚ) : AgentResponse :=
  match dataset with
  | none => AgentResponse.mk false (some "No dataset provided for optimization")
      none none none none
  | some cols =>
    if extractDemand cols = [] then
      AgentResponse.mk false (some "Could not extract demand data from dataset")
        none none none none
    else if baselineCost (getCurrentStock cols (extractDemand cols))
        baselineDemands holding_cost stockout_cost = 0 then
      AgentResponse.mk false (some "float division by zero") none none none none
    else
      AgentResponse.mk true none
        (some (baselineCost (getCurrentStock cols (extractDemand cols))
            baselineDemands holding_cost stockout_cost - optimal.expected_cost))
        (some ((baselineCost (getCurrentStock cols (extractDemand cols))
            baselineDemands holding_cost stockout_cost - optimal.expected_cost)
          / baselineCost (getCurrentStock cols (extractDemand cols))
            baselineDemands holding_cost stockout_cost * 100))
        (some optimal)
        (some (baselineCost (getCurrentStock cols (extractDemand cols))
            baselineDemands holding_cost stockout_cost))

/-- C9: when no column name contains any demand key and no column is
numeric, the extracted demand series is empty; and whenever the extracted
series is empty (also when a matching column is all NaN), `process` returns
the structured failure — `success = false` with the no-demand-data error
and no recommendation fields — and nothing else: the result is exactly
this single failure response, with no internal retry. -/
theorem no_demand_failure (cols : List DataColumn) (optimal : MCTSResult)
    (bd : List ℚ) (h c : ℚ) :
    ((∀ key ∈ demandCols, ∀ col ∈ cols, ¬ nameMatches key col.name) →
      (∀ col ∈ cols, col.numeric = false) → extractDemand cols = []) ∧
    (extractDemand cols = [] →
      process (some cols) optimal bd h c
        = AgentResponse.mk false (some "Could not extract demand data from dataset")
            none none none none) := by
  constructor
  · intro hname hnum
    unfold extractDemand
    have h1 : demandCols.findSome? (fun key => findMatching key cols) = none := by
      rw [List.findSome?_eq_none_iff]
      intro key hkey
      unfold findMatching
      rw [List.find?_eq_none]
      intro col hcol
      simp [hname key hkey col hcol]
    have h2 : cols.find? (fun c => c.numeric) = none := by
      rw [List.find?_eq_none]
      intro col hcol
      simp [hnum col hcol]
    rw [h1, h2]
  · intro hempty
    unfold process
    dsimp only
    rw [if_pos hempty]

/-- Witness for C9 at a one-column dataset whose column name matches no
demand key and is not numeric. -/
theorem no_demand_failure_witness :
    (∀ key ∈ demandCols, ∀ col ∈ [DataColumn.mk "note" [some 1] false],
      ¬ nameMatches key col.name) ∧
    (∀ col ∈ [DataColumn.mk "note" [some 1] false], col.numeric = false) ∧
    extractDemand [DataColumn.mk "note" [some 1] false] = [] ∧
    process (some [DataColumn.mk "note" [some 1] false]) (MCTSResult.mk 0 0 0 0 0 0)
        [4, 4] 5 50
      = AgentResponse.mk false (some "Could not extract demand data from dataset")
          none none none none := by
  have hname : ∀ key ∈ demandCols, ∀ col ∈ [DataColumn.mk "note" [some 1] false],
      ¬ nameMatches key col.name := by decide
  have hnum : ∀ col ∈ [DataColumn.mk "note" [some 1] false], col.numeric = false := by
    decide
  have h := no_demand_failure [DataColumn.mk "note" [some 1] false]
    (MCTSResult.mk 0 0 0 0 0 0) [4, 4] 5 50
  have hempty := h.1 hname hnum
  exact ⟨hname, hnum, hempty, h.2 hempty⟩

/-- C10: on any dataset with a nonempty extracted demand series whose
simulated never-reorder baseline cost is 0 (for example an all-zero demand
history with current stock 0), the savings-percentage division
`(baseline - expected) / baseline` has no zero guard, the resulting
ZeroDivisionError is converted by the top-level handler, and `process`
returns the failure response `success = false` instead of a result. -/
theorem zero_baseline_failure (cols : List DataColumn) (optimal : MCTSResult)
    (bd : List ℚ) (h c : ℚ)
    (hne : extractDemand cols ≠ [])
    (hz : baselineCost (getCurrentStock cols (extractDemand cols)) bd h c = 0) :
    process (some cols) optimal bd h c
      = AgentResponse.mk false (some "float division by zero") none none none none := by
  unfold process
  dsimp only
  rw [if_neg hne, if_pos hz]

/-- Witness for C10: a dataset whose demand column is all zeros, no stock
column (so current stock is twice the zero mean, hence 0), and the
all-zero sampled baseline path: the baseline cost is 0 and `process`
fails. -/
theorem zero_baseline_failure_witness :
    extractDemand [DataColumn.mk "demand" [some 0, some 0, some 0] true] ≠ [] ∧
    baselineCost (getCurrentStock [DataColumn.mk "demand" [some 0, some 0, some 0] true]
      (extractDemand [DataColumn.mk "demand" [some 0, some 0, some 0] true]))
      [0, 0, 0] 5 50 = 0 ∧
    process (some [DataColumn.mk "demand" [some 0, some 0, some 0] true])
        (MCTSResult.mk 15 10 6 120 9 25) [0, 0, 0] 5 50
      = AgentResponse.mk false (some "float division by zero") none none none none := by
  have hne : extractDemand [DataColumn.mk "demand" [some 0, some 0, some 0] true] ≠ [] := by
    decide
  have hext : extractDemand [DataColumn.mk "demand" [some 0, some 0, some 0] true]
      = [0, 0, 0] := by decide
  have hfind : stockCols.findSome? (fun key =>
      findMatching key [DataColumn.mk "demand" [some 0, some 0, some 0] true]) = none := by
    decide
  have hstock : getCurrentStock [DataColumn.mk "demand" [some 0, some 0, some 0] true]
      (extractDemand [DataColumn.mk "demand" [some 0, some 0, some 0] true]) = 0 := by
    unfold getCurrentStock
    rw [hfind, hext]
    norm_num [listMean]
  have hz : baselineCost
      (getCurrentStock [DataColumn.mk "demand" [some 0, some 0, some 0] true]
        (extractDemand [DataColumn.mk "demand" [some 0, some 0, some 0] true]))
      [0, 0, 0] 5 50 = 0 := by
    rw [hstock]
    norm_num [baselineCost, InventoryState.transition]
  exact ⟨hne, hz, zero_baseline_failure _ (MCTSResult.mk 15 10 6 120 9 25) [0, 0, 0]
    5 50 hne hz⟩

end AuraChain
